import Mathlib

/-!
Verification of the release-range discovery engine and the Helm upstream
of the `dependency` repository.

The repository ships two parts:

* the Helm upstream (`upstreams/helm.go`), whose code is embedded below
  directly from the source;
* the release-range discovery engine (`internal/git`), of which only the
  integration tests are available.  Its data model and operations are
  therefore modelled from the specification (semantic-version tag
  resolver, branch classifier, describe resolver, and the four discovery
  queries), faithful to the spec's wording.

All definitions are executable; machine state (the commit DAG, the tag
and branch listings, the Helm index cache) is passed explicitly.
-/

/-! ## Semantic versions (spec 4.1)

Modelled from the spec: grammar `vMAJOR.MINOR.PATCH[-PRERELEASE][+BUILD]`
with the leading `v` optional; precedence by major, minor, patch, then
prerelease identifiers compared component-wise with numeric identifiers
lower than alphanumeric ones; an absent prerelease ranks above any
prerelease.  The original parsing code lives in the missing
`internal/git` sources.
-/

structure SemVer where
  major : Nat
  minor : Nat
  patch : Nat
  pre : List String
deriving DecidableEq

/-- Split a character list at every occurrence of `c`. -/
def splitOnCharAux (c : Char) : List Char → List Char → List (List Char)
  | [], acc => [acc.reverse]
  | x :: xs, acc =>
    if x = c then acc.reverse :: splitOnCharAux c xs []
    else splitOnCharAux c xs (x :: acc)

def splitOnChar (c : Char) (l : List Char) : List (List Char) :=
  splitOnCharAux c l []

/-- Split a character list at the first occurrence of `c`, when present. -/
def splitFirstAux (c : Char) : List Char → List Char → List Char × Option (List Char)
  | [], acc => (acc.reverse, none)
  | x :: xs, acc =>
    if x = c then (acc.reverse, some xs)
    else splitFirstAux c xs (x :: acc)

def splitFirst (c : Char) (l : List Char) : List Char × Option (List Char) :=
  splitFirstAux c l []

def charsToNatAux : List Char → Nat → Option Nat
  | [], acc => some acc
  | c :: cs, acc =>
    if c.isDigit then charsToNatAux cs (acc * 10 + (c.toNat - 48)) else none

/-- Interpret a nonempty all-digit character list as a natural number. -/
def charsToNat? : List Char → Option Nat
  | [] => none
  | c :: cs => charsToNatAux (c :: cs) 0

/-- Parse a tag name against the semantic-version grammar.
Names that fail to parse yield `none` and are excluded from all
version-aware computations. -/
def parseSemVer (s : String) : Option SemVer :=
  let cs :=
    match s.data with
    | 'v' :: rest => rest
    | other => other
  let stripped := (splitFirst '+' cs).1
  let core := (splitFirst '-' stripped).1
  let preOpt := (splitFirst '-' stripped).2
  match splitOnChar '.' core with
  | [a, b, c] =>
    match charsToNat? a, charsToNat? b, charsToNat? c with
    | some M, some m, some p =>
      match preOpt with
      | none => some ⟨M, m, p, []⟩
      | some pre =>
        let ids := splitOnChar '.' pre
        if ids.all (fun i => !i.isEmpty) then
          some ⟨M, m, p, ids.map (fun l => String.mk l)⟩
        else none
    | _, _, _ => none
  | _ => none

/-- Prerelease identifier precedence: numeric identifiers compare
numerically and rank below alphanumeric ones, alphanumeric identifiers
compare lexically. -/
def identLt (a b : String) : Bool :=
  match charsToNat? a.data, charsToNat? b.data with
  | some x, some y => decide (x < y)
  | some _, none => true
  | none, some _ => false
  | none, none => decide (a < b)

/-- Component-wise prerelease list comparison; a strict prefix is lower. -/
def preListLt : List String → List String → Bool
  | [], [] => false
  | [], _ :: _ => true
  | _ :: _, [] => false
  | a :: as, b :: bs => if a = b then preListLt as bs else identLt a b

/-- Semantic-version precedence: major, then minor, then patch; a version
without prerelease ranks above any prerelease of the same numbers. -/
def semverLt (v w : SemVer) : Bool :=
  if v.major ≠ w.major then decide (v.major < w.major)
  else if v.minor ≠ w.minor then decide (v.minor < w.minor)
  else if v.patch ≠ w.patch then decide (v.patch < w.patch)
  else
    match v.pre.isEmpty, w.pre.isEmpty with
    | true, _ => false
    | false, true => true
    | false, false => preListLt v.pre w.pre

/-! ## Git data model (spec 3)

Modelled from the spec: commits form a DAG given by parent adjacency;
tags and branches are name/commit pairs; the default and currently
checked-out branch names are part of the repository handle.  The
original definitions live in the missing `internal/git` sources.
-/

structure GitTag where
  name : String
  target : String
deriving DecidableEq

structure Branch where
  name : String
  head : String
deriving DecidableEq

structure Repo where
  commits : List (String × List String)
  tags : List GitTag
  branches : List Branch
  defaultBranch : String
  currentBranch : String
deriving DecidableEq

/-- A tag whose name parsed as a semantic version. -/
structure VTag where
  name : String
  target : String
  ver : SemVer
deriving DecidableEq

structure DiscoverResult where
  startSHA : String
  startRev : String
  endSHA : String
  endRev : String
deriving DecidableEq

/-- The canonical "no result" value returned alongside a failure. -/
def zeroDiscover : DiscoverResult := ⟨"", "", "", ""⟩

/-- The typed error kinds of the discovery engine (spec 7). -/
inductive GitError where
  | unknownRef
  | notEnoughTags
  | noTagFound
  | noNextMinor
  | noReleaseBranch
  | noTagReachable
  | networkUnavailable
deriving DecidableEq

/-! ## Ancestry primitives (spec 6)

Modelled from the spec: the external version-control collaborator
supplies reference resolution, ancestry tests and merge bases over the
commit DAG. -/

def parentsOf (repo : Repo) (c : String) : List String :=
  match repo.commits.find? (fun p => p.1 == c) with
  | some p => p.2
  | none => []

def dedupAux : List String → List String → List String
  | _, [] => []
  | seen, x :: xs =>
    if seen.contains x then dedupAux seen xs
    else x :: dedupAux (x :: seen) xs

/-- Remove duplicates keeping the first occurrence of each element. -/
def dedupFirst (l : List String) : List String := dedupAux [] l

/-- One breadth-first expansion step of an ancestor frontier. -/
def ancestorsStep (repo : Repo) (acc : List String) : List String :=
  dedupFirst (acc ++ (acc.map (parentsOf repo)).flatten)

/-- All commits reachable from `c` by following parent edges, `c`
included, listed in breadth-first discovery order. -/
def ancestorsOrSelf (repo : Repo) (c : String) : List String :=
  (ancestorsStep repo)^[repo.commits.length] [c]

/-- Boolean ancestry test: is `a` an ancestor of (or equal to) `b`? -/
def isAncB (repo : Repo) (a b : String) : Bool :=
  (ancestorsOrSelf repo b).contains a

/-- Strict ancestry: ancestor-or-equal and distinct. -/
def isStrictAncB (repo : Repo) (a b : String) : Bool :=
  (a != b) && isAncB repo a b

/-- Resolve a reference name: branches first, then tags, then raw commit
identifiers; unresolvable names fail (spec: `UnknownRef`). -/
def resolveRef (repo : Repo) (name : String) : Option String :=
  match repo.branches.find? (fun b => b.name == name) with
  | some b => some b.head
  | none =>
    match repo.tags.find? (fun t => t.name == name) with
    | some t => some t.target
    | none =>
      if (repo.commits.map (fun p => p.1)).contains name then some name
      else none

/-- Minimum edge distance from `start` to `target` along parent edges,
found by breadth-first search. -/
def distToAux (repo : Repo) (target : String) : Nat → List String → Nat → Option Nat
  | 0, _, _ => none
  | fuel + 1, acc, d =>
    if acc.contains target then some d
    else distToAux repo target fuel (ancestorsStep repo acc) (d + 1)

def distTo (repo : Repo) (start target : String) : Option Nat :=
  distToAux repo target (repo.commits.length + 1) [start] 0

/-- Nearest common ancestor of `a` and `b`: the first ancestor of `a`, in
breadth-first order, that is also an ancestor of `b`. -/
def mergeBase (repo : Repo) (a b : String) : Option String :=
  (ancestorsOrSelf repo a).find? (fun c => (ancestorsOrSelf repo b).contains c)

/-! ## Version tag resolver and branch classifier (spec 4.1, 4.2)

Modelled from the spec: tags whose names parse as semantic versions form
the version-aware population; `Final` keeps tags with an empty
prerelease; a release branch is named `release-<digits>.<digits>` and
carries that (major, minor) identity; precedence ties are broken by
lexical name comparison for determinism. -/

def validTags (repo : Repo) : List VTag :=
  repo.tags.filterMap (fun t => (parseSemVer t.name).map (fun v => ⟨t.name, t.target, v⟩))

/-- Final (GA) tags whose target commit is an ancestor of, or equal to,
`head`. -/
def finalReachableTags (repo : Repo) (head : String) : List VTag :=
  (validTags repo).filter (fun t => t.ver.pre.isEmpty && isAncB repo t.target head)

def stripPrefixChars : List Char → List Char → Option (List Char)
  | [], rest => some rest
  | _ :: _, [] => none
  | p :: ps, c :: cs => if p = c then stripPrefixChars ps cs else none

/-- Recognize names of the shape `release-<digits>.<digits>` and extract
the (major, minor) identity. -/
def classifyBranch (name : String) : Option (Nat × Nat) :=
  match stripPrefixChars "release-".data name.data with
  | none => none
  | some rest =>
    match splitOnChar '.' rest with
    | [a, b] =>
      match charsToNat? a, charsToNat? b with
      | some M, some m => some (M, m)
      | _, _ => none
    | _ => none

/-- Restrict to the branch's (major, minor) family when the branch name
classifies as a release branch; otherwise keep all tags. -/
def familyFilter (repo : Repo) (branchName : String) (l : List VTag) : List VTag :=
  match classifyBranch branchName with
  | some mm => l.filter (fun t => t.ver.major == mm.1 && t.ver.minor == mm.2)
  | none => l

/-- Total order used for sorting: version precedence, ties broken by
lexical name comparison. -/
def tagLe (x y : VTag) : Bool :=
  if semverLt x.ver y.ver then true
  else if semverLt y.ver x.ver then false
  else decide (x.name ≤ y.name)

def insertTag (x : VTag) : List VTag → List VTag
  | [] => [x]
  | y :: ys => if tagLe x y then x :: y :: ys else y :: insertTag x ys

/-- Sort tags in ascending version precedence. -/
def sortTagsAsc : List VTag → List VTag
  | [] => []
  | x :: xs => insertTag x (sortTagsAsc xs)

def chooseFold (f : VTag → VTag → Bool) : VTag → List VTag → VTag
  | x, [] => x
  | x, y :: ys => chooseFold f (if f x y then y else x) ys

/-- Highest-precedence tag of a list (lexically greatest on ties). -/
def maxTag : List VTag → Option VTag
  | [] => none
  | x :: xs => some (chooseFold tagLe x xs)

/-- Lowest-precedence tag of a list (lexically least on ties). -/
def minTag : List VTag → Option VTag
  | [] => none
  | x :: xs => some (chooseFold (fun b t => tagLe t b) x xs)

def pairLtB (a b : Nat × Nat) : Bool :=
  a.1 < b.1 || (a.1 == b.1 && a.2 < b.2)

def latestReleaseBranchAux : Option (Branch × Nat × Nat) → List Branch → Option (Branch × Nat × Nat)
  | acc, [] => acc
  | acc, b :: bs =>
    match classifyBranch b.name with
    | none => latestReleaseBranchAux acc bs
    | some mm =>
      match acc with
      | none => latestReleaseBranchAux (some (b, mm)) bs
      | some (b0, mm0) =>
        latestReleaseBranchAux (if pairLtB mm0 mm then some (b, mm) else some (b0, mm0)) bs

/-- Among all classifiable branch names, the one with the numerically
highest (major, minor) pair. -/
def latestReleaseBranch (repo : Repo) : Option (Branch × Nat × Nat) :=
  latestReleaseBranchAux none repo.branches

/-! ## Describe resolver (spec 4.3)

Modelled from the spec: a reverse breadth-first traversal records the
minimum distance to each reachable commit; the tag at the smallest
distance wins, ties preferring highest version precedence then lexically
greatest name.  If the start commit itself carries one or more valid
tags, distance is zero and the traversal terminates immediately, the
label being the tag name alone; otherwise the label is
`<tagName>-<distance>-g<abbreviatedCommit>` where the abbreviation takes
the first `abbrevLen` characters with a minimum length enforced to stay
unambiguous within the visited set.  The spec notes the model does not
distinguish tag annotation status, so the `tagsOnly` option does not
change the eligible tag population. -/

/-- Valid tags targeting the commit `c` itself. -/
def tagsAt (repo : Repo) (c : String) : List VTag :=
  (validTags repo).filter (fun t => t.target == c)

def minDistOf (l : List (VTag × Nat)) : Option Nat :=
  match l.map (fun p => p.2) with
  | [] => none
  | d :: ds => some (ds.foldl Nat.min d)

def natToCharsAux : Nat → Nat → List Char → List Char
  | 0, _, acc => acc
  | _ + 1, 0, acc => acc
  | fuel + 1, n, acc => natToCharsAux fuel (n / 10) (Char.ofNat (48 + n % 10) :: acc)

def natToString (n : Nat) : String :=
  match n with
  | 0 => "0"
  | _ => String.mk (natToCharsAux (n + 1) n [])

def unambiguousAt (visited : List String) (id : String) (n : Nat) : Bool :=
  visited.all (fun c => c == id || c.data.take n != id.data.take n)

/-- Smallest abbreviation length that is unambiguous within the visited
set. -/
def minAbbrevLen (visited : List String) (id : String) : Nat :=
  match (List.range (id.length + 1)).find? (fun n => unambiguousAt visited id n) with
  | some n => n
  | none => id.length

def describeLabel (visited : List String) (start : String) (t : VTag) (d : Nat)
    (abbrevLen : Nat) : String :=
  t.name ++ "-" ++ natToString d ++ "-g" ++
    String.mk (start.data.take (Nat.max abbrevLen (minAbbrevLen visited start)))

/-- `Describe`: label a revision by its nearest reachable tag.  Fails
with `UnknownRef` on an unresolvable revision and with `NoTagReachable`
when no tag is an ancestor of, or equal to, the start commit. -/
def describe (repo : Repo) (rev : String) (tagsOnly : Bool) (abbrevLen : Nat) :
    String × Option GitError :=
  match resolveRef repo rev with
  | none => ("", some .unknownRef)
  | some start =>
    match maxTag (tagsAt repo start) with
    | some t => (t.name, none)
    | none =>
      let visited := ancestorsOrSelf repo start
      let cands := (validTags repo).filterMap (fun t =>
        if visited.contains t.target then (distTo repo start t.target).map (fun d => (t, d))
        else none)
      match minDistOf cands with
      | none => ("", some .noTagReachable)
      | some d =>
        match maxTag ((cands.filter (fun p => p.2 == d)).map (fun p => p.1)) with
        | some t => (describeLabel visited start t d abbrevLen, none)
        | none => ("", some .noTagReachable)

/-! ## Range discovery engine (spec 4.4)

Modelled from the spec: the four discovery queries.  Each returns, as the
Go surface does, a `DiscoverResult` together with an optional typed
error; every failure path returns the zero-valued result. -/

/-- `LatestPatchToPatch`: the range between the two most recent final
tags of the branch's family that lie on the branch's ancestry path. -/
def latestPatchToPatch (repo : Repo) (branchName : String) :
    DiscoverResult × Option GitError :=
  match resolveRef repo branchName with
  | none => (zeroDiscover, some .unknownRef)
  | some head =>
    match (sortTagsAsc (familyFilter repo branchName (finalReachableTags repo head))).reverse with
    | endTag :: c :: rest =>
      match (c :: rest).find? (fun t => isStrictAncB repo t.target endTag.target) with
      | some startTag =>
        ({ startSHA := startTag.target, startRev := startTag.name,
           endSHA := endTag.target, endRev := endTag.name }, none)
      | none => (zeroDiscover, some .notEnoughTags)
    | _ => (zeroDiscover, some .notEnoughTags)

/-- `LatestPatchToLatest`: from the highest-precedence qualifying final
tag to the branch head itself, the end labeled with the branch name. -/
def latestPatchToLatest (repo : Repo) (branchName : String) :
    DiscoverResult × Option GitError :=
  match resolveRef repo branchName with
  | none => (zeroDiscover, some .unknownRef)
  | some head =>
    match maxTag (familyFilter repo branchName (finalReachableTags repo head)) with
    | none => (zeroDiscover, some .noTagFound)
    | some t =>
      ({ startSHA := t.target, startRev := t.name,
         endSHA := head, endRev := branchName }, none)

/-- Reachable final tags whose patch component is zero. -/
def dotZeroFinals (repo : Repo) (head : String) : List VTag :=
  (finalReachableTags repo head).filter (fun t => t.ver.patch == 0)

/-- Reachable tags, final or prerelease, of the minor cycle following
`L`. -/
def nextMinorCandidates (repo : Repo) (head : String) (L : VTag) : List VTag :=
  (validTags repo).filter (fun t =>
    isAncB repo t.target head && t.ver.major == L.ver.major && t.ver.minor == L.ver.minor + 1)

/-- `LatestNonPatchFinalToMinor`: from the latest reachable `.0` final
tag to the first-cut tag of the following minor cycle. -/
def latestNonPatchFinalToMinor (repo : Repo) : DiscoverResult × Option GitError :=
  match resolveRef repo repo.currentBranch with
  | none => (zeroDiscover, some .unknownRef)
  | some head =>
    match maxTag (dotZeroFinals repo head) with
    | none => (zeroDiscover, some .noTagFound)
    | some L =>
      match minTag (nextMinorCandidates repo head L) with
      | none => (zeroDiscover, some .noNextMinor)
      | some N =>
        ({ startSHA := L.target, startRev := L.name,
           endSHA := N.target, endRev := N.name }, none)

/-- `LatestReleaseBranchMergeBaseToLatest`: from the merge base of the
latest release branch and the default branch to the default branch head,
the start labeled via the describe resolver with the raw commit
identifier as fallback. -/
def latestReleaseBranchMergeBaseToLatest (repo : Repo) : DiscoverResult × Option GitError :=
  match latestReleaseBranch repo with
  | none => (zeroDiscover, some .noReleaseBranch)
  | some Bmm =>
    match resolveRef repo repo.defaultBranch with
    | none => (zeroDiscover, some .unknownRef)
    | some defHead =>
      match mergeBase repo Bmm.1.head defHead with
      | none => (zeroDiscover, some .unknownRef)
      | some base =>
        let label :=
          match describe repo base true 0 with
          | (l, none) => l
          | (_, some _) => base
        ({ startSHA := base, startRev := label,
           endSHA := defHead, endRev := repo.defaultBranch }, none)

/-! ## Helm upstream (`upstreams/helm.go`)

Embedded from the source.  The network and filesystem effects of
`getIndex` (temp-file creation, `NewChartRepository`,
`DownloadIndexFile`, `LoadIndexFile`) are collapsed into one explicit
`download` function from a URL to an optional index; the package-level
`cache` map (a nil-able Go map) is passed as explicit state; the list of
URLs handed to `download` is returned so that network round-trips are
observable.  The index content is an arbitrary type `ι`, matching Go's
opaque `*repo.IndexFile`. -/

structure Helm where
  Repo : String
  Name : String
  Constraints : String
  Username : String
  Password : String
  CertFile : String
  KeyFile : String
  CAFile : String
deriving DecidableEq

/-- `repo.Entry`: the chart-repository entry handed to `getIndex`. -/
structure Entry where
  URL : String
  Username : String
  Password : String
  CertFile : String
  KeyFile : String
  CAFile : String
deriving DecidableEq

/-- The package-level cache: `nil` until first initialised, then a map
from repository URL to index. -/
abbrev HelmCache (ι : Type) : Type := Option (List (String × ι))

def lookupCache {ι : Type} (cache : HelmCache ι) (url : String) : Option ι :=
  match cache with
  | none => none
  | some m => m.lookup url

/-- `getIndex` returns the index for the given repository entry and
caches it for subsequent calls.  Result: the new cache state, the index
(or `none` on download failure, mirroring the error returns), and the
URLs that were downloaded. -/
def getIndex {ι : Type} (download : String → Option ι) (cache : HelmCache ι) (c : Entry) :
    HelmCache ι × Option ι × List String :=
  match cache with
  | none =>
    match download c.URL with
    | none => (some [], none, [c.URL])
    | some index => (some [(c.URL, index)], some index, [c.URL])
  | some m =>
    match m.lookup c.URL with
    | some index => (some m, some index, [])
    | none =>
      match download c.URL with
      | none => (some m, none, [c.URL])
      | some index => (some ((c.URL, index) :: m), some index, [c.URL])

/-- The repository URL `LatestVersion` resolves from the upstream's
`Repo` field (helm.go lines 84-87). -/
def helmRepoURL (upstream : Helm) : String :=
  if upstream.Repo = "" ∨ upstream.Repo = "stable" then
    "https://kubernetes-charts.storage.googleapis.com/"
  else upstream.Repo

/-- The `repo.Entry` `LatestVersion` builds (helm.go lines 89-96). -/
def helmEntry (upstream : Helm) : Entry :=
  { URL := helmRepoURL upstream
    Username := upstream.Username
    Password := upstream.Password
    CertFile := upstream.CertFile
    KeyFile := upstream.KeyFile
    CAFile := upstream.CAFile }

/-- `Helm.LatestVersion`: the latest version of a Helm chart in the
resolved repository.  `getVersion` stands for `index.Get(name,
constraints)`; the Go error strings are collapsed to `none`.  Returns
the new cache state, the version result, and the downloaded URLs. -/
def Helm.LatestVersion {ι : Type} (getVersion : ι → String → String → Option String)
    (download : String → Option ι) (cache : HelmCache ι) (upstream : Helm) :
    HelmCache ι × Option String × List String :=
  match getIndex download cache (helmEntry upstream) with
  | (cache1, none, q) => (cache1, none, q)
  | (cache1, some index, q) =>
    match getVersion index upstream.Name upstream.Constraints with
    | none => (cache1, none, q)
    | some v => (cache1, some v, q)

/-- Fold a sequence of further `getIndex` calls (each with its own
download function and entry) over a cache state. -/
def evolveCache {ι : Type} (steps : List ((String → Option ι) × Entry)) (cache : HelmCache ι) :
    HelmCache ι :=
  steps.foldl (fun ca s => (getIndex s.1 ca s.2).1) cache

/-! ## Concrete histories

`repoFour` mirrors the integration-test repository built by
`newTestRepo`: commit `c1` (tagged `v1.17.0`, head of `master`), then on
branch `release-1.17` commits `c2` (tagged `v0.1.1`), `c3` (tagged
`v1.17.1`) and `c4` (the branch head). -/

def repoFour : Repo :=
  { commits := [("c1", []), ("c2", ["c1"]), ("c3", ["c2"]), ("c4", ["c3"])]
    tags := [⟨"v1.17.0", "c1"⟩, ⟨"v0.1.1", "c2"⟩, ⟨"v1.17.1", "c3"⟩]
    branches := [⟨"master", "c1"⟩, ⟨"release-1.17", "c4"⟩]
    defaultBranch := "master"
    currentBranch := "release-1.17" }

/-- `repoFour` after `v1.17.2` is tagged on the branch head, as in
`TestSuccessLatestPatchToPatchNewTag`. -/
def repoFourNewTag : Repo :=
  { repoFour with tags := repoFour.tags ++ [⟨"v1.17.2", "c4"⟩] }

/-- A mainline history for the minor-to-minor query: `v1.17.0` at the
root and a first next-cycle prerelease `v1.18.0-alpha.1` further up. -/
def repoMinor : Repo :=
  { commits := [("c1", []), ("c2", ["c1"]), ("c3", ["c2"]), ("c4", ["c3"])]
    tags := [⟨"v1.17.0", "c1"⟩, ⟨"v1.18.0-alpha.1", "c3"⟩]
    branches := [⟨"master", "c4"⟩]
    defaultBranch := "master"
    currentBranch := "master" }

/-- A two-commit history whose branch head itself carries a final tag. -/
def repoTaggedHead : Repo :=
  { commits := [("a", []), ("b", ["a"])]
    tags := [⟨"v1.0.0", "a"⟩, ⟨"v1.0.1", "b"⟩]
    branches := [⟨"main", "b"⟩]
    defaultBranch := "main"
    currentBranch := "main" }

/-- A forked history: `r` is the root, `a` (tagged `v1.0.0`) and `b`
(tagged `v1.1.0-alpha`) sit on divergent lines, merged by `m`. -/
def repoFork : Repo :=
  { commits := [("r", []), ("a", ["r"]), ("b", ["r"]), ("m", ["a", "b"])]
    tags := [⟨"v1.0.0", "a"⟩, ⟨"v1.1.0-alpha", "b"⟩]
    branches := [⟨"main", "m"⟩]
    defaultBranch := "main"
    currentBranch := "main" }

/-- A stationary history whose merge base carries both a final tag
(`v1.0.0`) and a higher-precedence prerelease tag (`v1.1.0-alpha`): the
default branch head `c1` is the merge base of `release-1.0` (head `c2`)
and the default branch. -/
def repoMixedTags : Repo :=
  { commits := [("c1", []), ("c2", ["c1"])]
    tags := [⟨"v1.0.0", "c1"⟩, ⟨"v1.1.0-alpha", "c1"⟩]
    branches := [⟨"master", "c1"⟩, ⟨"release-1.0", "c2"⟩]
    defaultBranch := "master"
    currentBranch := "master" }

/-! ## Helper lemmas -/

theorem chooseFold_mem (f : VTag → VTag → Bool) :
    ∀ (l : List VTag) (x : VTag), chooseFold f x l ∈ x :: l := by
  intro l
  induction l with
  | nil => intro x; simp [chooseFold]
  | cons y ys ih =>
    intro x
    have h := ih (if f x y then y else x)
    have hstep : chooseFold f x (y :: ys) = chooseFold f (if f x y then y else x) ys := rfl
    rw [hstep]
    rcases List.mem_cons.mp h with h1 | h1
    · rw [h1]
      by_cases hf : f x y
      · rw [if_pos hf]; exact List.mem_cons_of_mem x (List.mem_cons_self y ys)
      · rw [if_neg hf]; exact List.mem_cons_self x (y :: ys)
    · exact List.mem_cons_of_mem x (List.mem_cons_of_mem y h1)

theorem maxTag_mem {l : List VTag} {t : VTag} (h : maxTag l = some t) : t ∈ l := by
  cases l with
  | nil => simp [maxTag] at h
  | cons x xs =>
    simp only [maxTag, Option.some.injEq] at h
    have := chooseFold_mem tagLe xs x
    rw [h] at this
    exact this

theorem minTag_mem {l : List VTag} {t : VTag} (h : minTag l = some t) : t ∈ l := by
  cases l with
  | nil => simp [minTag] at h
  | cons x xs =>
    simp only [minTag, Option.some.injEq] at h
    have := chooseFold_mem (fun b t => tagLe t b) xs x
    rw [h] at this
    exact this

theorem mem_insertTag {x t : VTag} : ∀ {l : List VTag}, t ∈ insertTag x l → t = x ∨ t ∈ l := by
  intro l
  induction l with
  | nil => intro h; simp [insertTag] at h; exact Or.inl h
  | cons y ys ih =>
    intro h
    simp only [insertTag] at h
    by_cases hf : tagLe x y
    · rw [if_pos hf] at h
      rcases List.mem_cons.mp h with h1 | h1
      · exact Or.inl h1
      · exact Or.inr h1
    · rw [if_neg hf] at h
      rcases List.mem_cons.mp h with h1 | h1
      · exact Or.inr (h1 ▸ List.mem_cons_self y ys)
      · rcases ih h1 with h2 | h2
        · exact Or.inl h2
        · exact Or.inr (List.mem_cons_of_mem y h2)

theorem mem_sortTagsAsc {t : VTag} : ∀ {l : List VTag}, t ∈ sortTagsAsc l → t ∈ l := by
  intro l
  induction l with
  | nil => intro h; simp [sortTagsAsc] at h
  | cons x xs ih =>
    intro h
    simp only [sortTagsAsc] at h
    rcases mem_insertTag h with h1 | h1
    · exact h1 ▸ List.mem_cons_self x xs
    · exact List.mem_cons_of_mem x (ih h1)

theorem mem_familyFilter {repo : Repo} {bN : String} {l : List VTag} {t : VTag}
    (h : t ∈ familyFilter repo bN l) : t ∈ l := by
  unfold familyFilter at h
  cases hc : classifyBranch bN with
  | none => rw [hc] at h; exact h
  | some mm => rw [hc] at h; exact List.mem_of_mem_filter h

theorem mem_finalReachable {repo : Repo} {head : String} {t : VTag}
    (h : t ∈ finalReachableTags repo head) :
    t ∈ validTags repo ∧ t.target ∈ ancestorsOrSelf repo head := by
  unfold finalReachableTags at h
  have h1 := List.mem_of_mem_filter h
  have h2 := List.of_mem_filter h
  simp only [Bool.and_eq_true] at h2
  refine ⟨h1, ?_⟩
  have := h2.2
  unfold isAncB at this
  simpa using this

theorem validTags_name {repo : Repo} {t : VTag} (h : t ∈ validTags repo) :
    ∃ t0 ∈ repo.tags, t0.name = t.name := by
  unfold validTags at h
  rcases List.mem_filterMap.mp h with ⟨t0, ht0, heq⟩
  cases hp : parseSemVer t0.name with
  | none => rw [hp] at heq; simp at heq
  | some v =>
    rw [hp] at heq
    simp only [Option.map_some', Option.some.injEq] at heq
    exact ⟨t0, ht0, by rw [← heq]⟩

/-- Names of tags in the sorted, family-filtered qualifying set come from
the repository's tag listing, and their targets are reachable. -/
theorem quals_spec {repo : Repo} {bN head : String} {t : VTag}
    (h : t ∈ sortTagsAsc (familyFilter repo bN (finalReachableTags repo head))) :
    (∃ t0 ∈ repo.tags, t0.name = t.name) ∧ t.target ∈ ancestorsOrSelf repo head := by
  have h1 := mem_familyFilter (mem_sortTagsAsc h)
  have h2 := mem_finalReachable h1
  exact ⟨validTags_name h2.1, h2.2⟩

/-! ## Claims -/

/-- C1: For every branch whose reachable final tags of the branch's
(major, minor) family, ordered by version precedence, are
`T0 < ... < Tn` (`n ≥ 1`) with ancestry order agreeing (in particular
`Tn-1`'s target a strict ancestor of `Tn`'s target),
`LatestPatchToPatch` returns the `DiscoverResult` whose start is `Tn-1`
(target commit and name) and whose end is `Tn` (target commit and
name). -/
theorem latestPatchToPatch_last_two (repo : Repo) (branchName head : String)
    (tn tn1 : VTag) (rest : List VTag)
    (hhead : resolveRef repo branchName = some head)
    (hsort : (sortTagsAsc (familyFilter repo branchName (finalReachableTags repo head))).reverse
      = tn :: tn1 :: rest)
    (hanc : isStrictAncB repo tn1.target tn.target = true) :
    latestPatchToPatch repo branchName =
      ({ startSHA := tn1.target, startRev := tn1.name,
         endSHA := tn.target, endRev := tn.name }, none) := by
  unfold latestPatchToPatch
  simp only [hhead, hsort]
  simp [List.find?_cons, hanc]

theorem latestPatchToPatch_last_two_witness :
    isStrictAncB repoFour "c1" "c3" = true ∧
    latestPatchToPatch repoFour "release-1.17" =
      ({ startSHA := "c1", startRev := "v1.17.0", endSHA := "c3", endRev := "v1.17.1" }, none) :=
  ⟨by decide,
   latestPatchToPatch_last_two repoFour "release-1.17" "c4"
     ⟨"v1.17.1", "c3", ⟨1, 17, 1, []⟩⟩ ⟨"v1.17.0", "c1", ⟨1, 17, 0, []⟩⟩ []
     (by decide) (by decide) (by decide)⟩

/-- C2: Under a release-branch name, every tag in the qualifying family
filter carries exactly the branch's (major, minor); and in the
four-commit history `c1`(v1.17.0) → `c2`(v0.1.1) → `c3`(v1.17.1) → `c4`,
the reachable final tag `v0.1.1` is excluded from the family while
`LatestPatchToPatch "release-1.17"` returns `c1`/`v1.17.0` to
`c3`/`v1.17.1`. -/
theorem latestPatchToPatch_family_excludes (repo : Repo) (bN : String) (mm : Nat × Nat)
    (l : List VTag) (t : VTag)
    (hcls : classifyBranch bN = some mm)
    (ht : t ∈ familyFilter repo bN l) :
    (t.ver.major = mm.1 ∧ t.ver.minor = mm.2) ∧
    ((finalReachableTags repoFour "c4").any (fun x => x.name == "v0.1.1") = true ∧
     (familyFilter repoFour "release-1.17" (finalReachableTags repoFour "c4")).all
       (fun x => x.name != "v0.1.1") = true ∧
     latestPatchToPatch repoFour "release-1.17" =
       ({ startSHA := "c1", startRev := "v1.17.0", endSHA := "c3", endRev := "v1.17.1" }, none)) := by
  constructor
  · unfold familyFilter at ht
    rw [hcls] at ht
    have h2 := List.of_mem_filter ht
    simp only [Bool.and_eq_true, beq_iff_eq] at h2
    exact h2
  · exact ⟨by decide, by decide, by decide⟩

theorem latestPatchToPatch_family_excludes_witness :
    classifyBranch "release-1.17" = some (1, 17) ∧
    (⟨"v1.17.0", "c1", ⟨1, 17, 0, []⟩⟩ : VTag).ver.major = 1 ∧
    (⟨"v1.17.0", "c1", ⟨1, 17, 0, []⟩⟩ : VTag).ver.minor = 17 :=
  ⟨by decide,
   (latestPatchToPatch_family_excludes repoFour "release-1.17" (1, 17)
     (finalReachableTags repoFour "c4") ⟨"v1.17.0", "c1", ⟨1, 17, 0, []⟩⟩
     (by decide) (by decide)).1.1,
   (latestPatchToPatch_family_excludes repoFour "release-1.17" (1, 17)
     (finalReachableTags repoFour "c4") ⟨"v1.17.0", "c1", ⟨1, 17, 0, []⟩⟩
     (by decide) (by decide)).1.2⟩

/-- C3: A successful `LatestPatchToLatest` returns `endSHA` equal to the
commit the branch head resolves to (tagged or not), `endRev` the branch
name, and start equal to the highest-precedence final tag of the
qualifying (family-filtered) reachable set. -/
theorem latestPatchToLatest_end_is_head (repo : Repo) (bN head : String) (t : VTag)
    (hhead : resolveRef repo bN = some head)
    (hmax : maxTag (familyFilter repo bN (finalReachableTags repo head)) = some t) :
    latestPatchToLatest repo bN =
      ({ startSHA := t.target, startRev := t.name, endSHA := head, endRev := bN }, none) := by
  unfold latestPatchToLatest
  simp only [hhead, hmax]

theorem latestPatchToLatest_end_is_head_witness :
    latestPatchToLatest repoFour "release-1.17" =
      ({ startSHA := "c3", startRev := "v1.17.1", endSHA := "c4", endRev := "release-1.17" }, none) :=
  latestPatchToLatest_end_is_head repoFour "release-1.17" "c4"
    ⟨"v1.17.1", "c3", ⟨1, 17, 1, []⟩⟩ (by decide) (by decide)

/-- C4: `Describe` on a commit that itself carries a valid tag, with
`abbrevLen = 0` and `tagsOnly` set, returns exactly the (preferred) tag
name with no distance or abbreviated-commit suffix. -/
theorem describe_tagged_commit (repo : Repo) (rev start : String) (t : VTag)
    (hres : resolveRef repo rev = some start)
    (hat : maxTag (tagsAt repo start) = some t) :
    describe repo rev true 0 = (t.name, none) := by
  unfold describe
  simp only [hres, hat]

theorem describe_tagged_commit_witness :
    describe repoFour "c1" true 0 = ("v1.17.0", none) :=
  describe_tagged_commit repoFour "c1" "c1" ⟨"v1.17.0", "c1", ⟨1, 17, 0, []⟩⟩
    (by decide) (by decide)

/-- C6 counterexample: the claim fails as stated.  In `repoMixedTags`
the mainline is stationary (the merge base of `release-1.0` and the
default branch equals the default branch head `c1`), yet the operation
labels the start `v1.1.0-alpha` — the highest-precedence tag at the
base, a prerelease — while the highest-precedence final tag at the base
is `v1.0.0`. -/
theorem mergeBaseToLatest_stationary_counterexample :
    latestReleaseBranchMergeBaseToLatest repoMixedTags =
      ({ startSHA := "c1", startRev := "v1.1.0-alpha",
         endSHA := "c1", endRev := "master" }, none) ∧
    mergeBase repoMixedTags "c2" "c1" = some "c1" ∧
    maxTag ((tagsAt repoMixedTags "c1").filter (fun t => t.ver.pre.isEmpty))
      = some ⟨"v1.0.0", "c1", ⟨1, 0, 0, []⟩⟩ ∧
    ("v1.1.0-alpha" == "v1.0.0") = false := by
  refine ⟨by decide, by decide, by decide, by decide⟩

/-- C6 (amended): when the default branch head equals the merge base of
the latest release branch and the default branch,
`LatestReleaseBranchMergeBaseToLatest` returns `startSHA = endSHA =`
that merge base, `startRev` the name of the highest-precedence valid
tag at the base — regardless of finality, per the describe resolver's
tie-break — and `endRev` the default branch name. -/
theorem mergeBaseToLatest_stationary_amended (repo : Repo) (B : Branch) (mm : Nat × Nat)
    (defHead : String) (t : VTag)
    (hlrb : latestReleaseBranch repo = some (B, mm))
    (hdef : resolveRef repo repo.defaultBranch = some defHead)
    (hmb : mergeBase repo B.head defHead = some defHead)
    (hres : resolveRef repo defHead = some defHead)
    (hat : maxTag (tagsAt repo defHead) = some t) :
    latestReleaseBranchMergeBaseToLatest repo =
      ({ startSHA := defHead, startRev := t.name,
         endSHA := defHead, endRev := repo.defaultBranch }, none) := by
  unfold latestReleaseBranchMergeBaseToLatest
  simp only [hlrb, hdef, hmb, describe, hres, hat]

theorem mergeBaseToLatest_stationary_amended_witness :
    latestReleaseBranchMergeBaseToLatest repoFour =
      ({ startSHA := "c1", startRev := "v1.17.0", endSHA := "c1", endRev := "master" }, none) :=
  mergeBaseToLatest_stationary_amended repoFour ⟨"release-1.17", "c4"⟩ (1, 17) "c1"
    ⟨"v1.17.0", "c1", ⟨1, 17, 0, []⟩⟩
    (by decide) (by decide) (by decide) (by decide) (by decide)

/-- C7: With `L` the latest reachable `.0` final tag,
`LatestNonPatchFinalToMinor` fails with `NoNextMinor` (returning the
zero result) exactly while no reachable tag of the next minor cycle
`(L.major, L.minor + 1)` exists; once such tags exist it succeeds with
start `L` and end the lowest-precedence next-cycle tag. -/
theorem nonPatchFinalToMinor_cases (repo : Repo) (head : String) (L : VTag)
    (hhead : resolveRef repo repo.currentBranch = some head)
    (hL : maxTag (dotZeroFinals repo head) = some L) :
    (nextMinorCandidates repo head L = [] →
      latestNonPatchFinalToMinor repo = (zeroDiscover, some .noNextMinor)) ∧
    (∀ N : VTag, minTag (nextMinorCandidates repo head L) = some N →
      latestNonPatchFinalToMinor repo =
        ({ startSHA := L.target, startRev := L.name,
           endSHA := N.target, endRev := N.name }, none)) := by
  constructor
  · intro hnil
    unfold latestNonPatchFinalToMinor
    simp only [hhead, hL, hnil, minTag]
  · intro N hN
    unfold latestNonPatchFinalToMinor
    simp only [hhead, hL, hN]

theorem nonPatchFinalToMinor_cases_witness :
    latestNonPatchFinalToMinor repoMinor =
      ({ startSHA := "c1", startRev := "v1.17.0",
         endSHA := "c3", endRev := "v1.18.0-alpha.1" }, none) :=
  (nonPatchFinalToMinor_cases repoMinor "c4" ⟨"v1.17.0", "c1", ⟨1, 17, 0, []⟩⟩
    (by decide) (by decide)).2
    ⟨"v1.18.0-alpha.1", "c3", ⟨1, 18, 0, ["alpha", "1"]⟩⟩ (by decide)

/-! ## Inversion lemmas for the four discovery operations -/

theorem latestPatchToPatch_inv (repo : Repo) (bN : String) :
    ((latestPatchToPatch repo bN).1 = zeroDiscover ∧
      (latestPatchToPatch repo bN).2.isSome = true) ∨
    ∃ head tn tn1 rest startTag,
      resolveRef repo bN = some head ∧
      (sortTagsAsc (familyFilter repo bN (finalReachableTags repo head))).reverse
        = tn :: tn1 :: rest ∧
      (tn1 :: rest).find? (fun t => isStrictAncB repo t.target tn.target) = some startTag ∧
      latestPatchToPatch repo bN =
        ({ startSHA := startTag.target, startRev := startTag.name,
           endSHA := tn.target, endRev := tn.name }, none) := by
  cases hres : resolveRef repo bN with
  | none =>
    left
    have hop : latestPatchToPatch repo bN = (zeroDiscover, some .unknownRef) := by
      unfold latestPatchToPatch; simp only [hres]
    rw [hop]; exact ⟨rfl, rfl⟩
  | some head =>
    cases hsort : (sortTagsAsc (familyFilter repo bN (finalReachableTags repo head))).reverse with
    | nil =>
      left
      have hop : latestPatchToPatch repo bN = (zeroDiscover, some .notEnoughTags) := by
        unfold latestPatchToPatch; simp only [hres, hsort]
      rw [hop]; exact ⟨rfl, rfl⟩
    | cons tn rest0 =>
      cases rest0 with
      | nil =>
        left
        have hop : latestPatchToPatch repo bN = (zeroDiscover, some .notEnoughTags) := by
          unfold latestPatchToPatch; simp only [hres, hsort]
        rw [hop]; exact ⟨rfl, rfl⟩
      | cons tn1 rest =>
        cases hfind : (tn1 :: rest).find? (fun t => isStrictAncB repo t.target tn.target) with
        | none =>
          left
          have hop : latestPatchToPatch repo bN = (zeroDiscover, some .notEnoughTags) := by
            unfold latestPatchToPatch; simp only [hres, hsort, hfind]
          rw [hop]; exact ⟨rfl, rfl⟩
        | some startTag =>
          right
          refine ⟨head, tn, tn1, rest, startTag, rfl, hsort, hfind, ?_⟩
          unfold latestPatchToPatch
          simp only [hres, hsort, hfind]

theorem latestPatchToLatest_inv (repo : Repo) (bN : String) :
    ((latestPatchToLatest repo bN).1 = zeroDiscover ∧
      (latestPatchToLatest repo bN).2.isSome = true) ∨
    ∃ head t,
      resolveRef repo bN = some head ∧
      maxTag (familyFilter repo bN (finalReachableTags repo head)) = some t ∧
      latestPatchToLatest repo bN =
        ({ startSHA := t.target, startRev := t.name, endSHA := head, endRev := bN }, none) := by
  cases hres : resolveRef repo bN with
  | none =>
    left
    have hop : latestPatchToLatest repo bN = (zeroDiscover, some .unknownRef) := by
      unfold latestPatchToLatest; simp only [hres]
    rw [hop]; exact ⟨rfl, rfl⟩
  | some head =>
    cases hmax : maxTag (familyFilter repo bN (finalReachableTags repo head)) with
    | none =>
      left
      have hop : latestPatchToLatest repo bN = (zeroDiscover, some .noTagFound) := by
        unfold latestPatchToLatest; simp only [hres, hmax]
      rw [hop]; exact ⟨rfl, rfl⟩
    | some t =>
      right
      refine ⟨head, t, rfl, hmax, ?_⟩
      unfold latestPatchToLatest
      simp only [hres, hmax]

theorem nonPatchFinalToMinor_inv (repo : Repo) :
    ((latestNonPatchFinalToMinor repo).1 = zeroDiscover ∧
      (latestNonPatchFinalToMinor repo).2.isSome = true) ∨
    ∃ head L N,
      resolveRef repo repo.currentBranch = some head ∧
      maxTag (dotZeroFinals repo head) = some L ∧
      minTag (nextMinorCandidates repo head L) = some N ∧
      latestNonPatchFinalToMinor repo =
        ({ startSHA := L.target, startRev := L.name,
           endSHA := N.target, endRev := N.name }, none) := by
  cases hres : resolveRef repo repo.currentBranch with
  | none =>
    left
    have hop : latestNonPatchFinalToMinor repo = (zeroDiscover, some .unknownRef) := by
      unfold latestNonPatchFinalToMinor; simp only [hres]
    rw [hop]; exact ⟨rfl, rfl⟩
  | some head =>
    cases hL : maxTag (dotZeroFinals repo head) with
    | none =>
      left
      have hop : latestNonPatchFinalToMinor repo = (zeroDiscover, some .noTagFound) := by
        unfold latestNonPatchFinalToMinor; simp only [hres, hL]
      rw [hop]; exact ⟨rfl, rfl⟩
    | some L =>
      cases hN : minTag (nextMinorCandidates repo head L) with
      | none =>
        left
        have hop : latestNonPatchFinalToMinor repo = (zeroDiscover, some .noNextMinor) := by
          unfold latestNonPatchFinalToMinor; simp only [hres, hL, hN]
        rw [hop]; exact ⟨rfl, rfl⟩
      | some N =>
        right
        refine ⟨head, L, N, rfl, hL, hN, ?_⟩
        unfold latestNonPatchFinalToMinor
        simp only [hres, hL, hN]

theorem mergeBaseToLatest_inv (repo : Repo) :
    ((latestReleaseBranchMergeBaseToLatest repo).1 = zeroDiscover ∧
      (latestReleaseBranchMergeBaseToLatest repo).2.isSome = true) ∨
    ∃ Bmm defHead base lbl,
      latestReleaseBranch repo = some Bmm ∧
      resolveRef repo repo.defaultBranch = some defHead ∧
      mergeBase repo Bmm.1.head defHead = some base ∧
      (lbl = (describe repo base true 0).1 ∨ lbl = base) ∧
      latestReleaseBranchMergeBaseToLatest repo =
        ({ startSHA := base, startRev := lbl,
           endSHA := defHead, endRev := repo.defaultBranch }, none) := by
  cases hlrb : latestReleaseBranch repo with
  | none =>
    left
    have hop : latestReleaseBranchMergeBaseToLatest repo = (zeroDiscover, some .noReleaseBranch) := by
      unfold latestReleaseBranchMergeBaseToLatest; simp only [hlrb]
    rw [hop]; exact ⟨rfl, rfl⟩
  | some Bmm =>
    cases hdef : resolveRef repo repo.defaultBranch with
    | none =>
      left
      have hop : latestReleaseBranchMergeBaseToLatest repo = (zeroDiscover, some .unknownRef) := by
        unfold latestReleaseBranchMergeBaseToLatest; simp only [hlrb, hdef]
      rw [hop]; exact ⟨rfl, rfl⟩
    | some defHead =>
      cases hmb : mergeBase repo Bmm.1.head defHead with
      | none =>
        left
        have hop : latestReleaseBranchMergeBaseToLatest repo = (zeroDiscover, some .unknownRef) := by
          unfold latestReleaseBranchMergeBaseToLatest; simp only [hlrb, hdef, hmb]
        rw [hop]; exact ⟨rfl, rfl⟩
      | some base =>
        right
        cases hd : describe repo base true 0 with
        | mk lbl0 err =>
          cases err with
          | none =>
            refine ⟨Bmm, defHead, base, lbl0, rfl, rfl, hmb, Or.inl (by rw [hd]), ?_⟩
            unfold latestReleaseBranchMergeBaseToLatest
            simp only [hlrb, hdef, hmb, hd]
          | some e =>
            refine ⟨Bmm, defHead, base, base, rfl, rfl, hmb, Or.inr rfl, ?_⟩
            unfold latestReleaseBranchMergeBaseToLatest
            simp only [hlrb, hdef, hmb, hd]

/-- C5: Every failing call of any of the four discovery operations
returns the zero-valued `DiscoverResult` alongside its typed error —
never a partial or fallback result. -/
theorem discovery_failure_zero (repo : Repo) (bN : String) :
    ((latestPatchToPatch repo bN).2.isSome = true →
      (latestPatchToPatch repo bN).1 = zeroDiscover) ∧
    ((latestPatchToLatest repo bN).2.isSome = true →
      (latestPatchToLatest repo bN).1 = zeroDiscover) ∧
    ((latestNonPatchFinalToMinor repo).2.isSome = true →
      (latestNonPatchFinalToMinor repo).1 = zeroDiscover) ∧
    ((latestReleaseBranchMergeBaseToLatest repo).2.isSome = true →
      (latestReleaseBranchMergeBaseToLatest repo).1 = zeroDiscover) := by
  refine ⟨?_, ?_, ?_, ?_⟩
  · intro h
    rcases latestPatchToPatch_inv repo bN with ⟨h1, _⟩ | ⟨_, _, _, _, _, _, _, _, hop⟩
    · exact h1
    · rw [hop] at h; simp at h
  · intro h
    rcases latestPatchToLatest_inv repo bN with ⟨h1, _⟩ | ⟨_, _, _, _, hop⟩
    · exact h1
    · rw [hop] at h; simp at h
  · intro h
    rcases nonPatchFinalToMinor_inv repo with ⟨h1, _⟩ | ⟨_, _, _, _, _, _, hop⟩
    · exact h1
    · rw [hop] at h; simp at h
  · intro h
    rcases mergeBaseToLatest_inv repo with ⟨h1, _⟩ | ⟨_, _, _, _, _, _, _, _, hop⟩
    · exact h1
    · rw [hop] at h; simp at h

theorem discovery_failure_zero_witness :
    (latestPatchToPatch repoFour "wrong-branch").2.isSome = true ∧
    (latestPatchToPatch repoFour "wrong-branch").1 = zeroDiscover :=
  ⟨by decide, (discovery_failure_zero repoFour "wrong-branch").1 (by decide)⟩

/-- C8 counterexample: the claimed invariant fails as stated.  In the
forked history `repoFork` (root `r`, divergent `a` tagged `v1.0.0` and
`b` tagged `v1.1.0-alpha`, merged by `m`),
`LatestNonPatchFinalToMinor` succeeds with a non-zero result whose
`startSHA` (`a`) is not an ancestor of its `endSHA` (`b`); and in
`repoTaggedHead` (branch head `b` tagged `v1.0.1`),
`LatestPatchToLatest` labels its end with the branch name `main` even
though the end commit carries a known tag. -/
theorem discoverResult_invariant_counterexample :
    latestNonPatchFinalToMinor repoFork =
      ({ startSHA := "a", startRev := "v1.0.0",
         endSHA := "b", endRev := "v1.1.0-alpha" }, none) ∧
    isAncB repoFork "a" "b" = false ∧
    latestPatchToLatest repoTaggedHead "main" =
      ({ startSHA := "b", startRev := "v1.0.1", endSHA := "b", endRev := "main" }, none) ∧
    repoTaggedHead.tags.contains ⟨"v1.0.1", "b"⟩ = true ∧
    ("main" == "v1.0.1") = false := by
  refine ⟨by decide, by decide, by decide, by decide, by decide⟩

/-- C8 (amended): every successful `DiscoverResult` satisfies: for
`LatestPatchToPatch` and `LatestPatchToLatest`, `startSHA` is a
reachable ancestor of (or equal to) `endSHA` and the tag-derived labels
name repository tags (the patch-to-latest `endRev` being the branch
name, possibly even when the head is tagged); for
`LatestNonPatchFinalToMinor`, both endpoints are reachable from the
current head and labeled by repository tags, but `startSHA` need not be
an ancestor of `endSHA`; for `LatestReleaseBranchMergeBaseToLatest`,
`startSHA` is a reachable ancestor of (or equal to) `endSHA`, `startRev`
is the describe label or the raw commit identifier, and `endRev` is the
default branch name. -/
theorem discoverResult_invariant_amended (repo : Repo) (bN : String) (r : DiscoverResult) :
    (latestPatchToPatch repo bN = (r, none) →
      r.startSHA ∈ ancestorsOrSelf repo r.endSHA ∧
      (∃ t0 ∈ repo.tags, t0.name = r.startRev) ∧
      (∃ t0 ∈ repo.tags, t0.name = r.endRev)) ∧
    (latestPatchToLatest repo bN = (r, none) →
      r.startSHA ∈ ancestorsOrSelf repo r.endSHA ∧
      (∃ t0 ∈ repo.tags, t0.name = r.startRev) ∧
      r.endRev = bN) ∧
    (latestNonPatchFinalToMinor repo = (r, none) →
      (∃ head, resolveRef repo repo.currentBranch = some head ∧
        r.startSHA ∈ ancestorsOrSelf repo head ∧
        r.endSHA ∈ ancestorsOrSelf repo head) ∧
      (∃ t0 ∈ repo.tags, t0.name = r.startRev) ∧
      (∃ t0 ∈ repo.tags, t0.name = r.endRev)) ∧
    (latestReleaseBranchMergeBaseToLatest repo = (r, none) →
      r.startSHA ∈ ancestorsOrSelf repo r.endSHA ∧
      (r.startRev = (describe repo r.startSHA true 0).1 ∨ r.startRev = r.startSHA) ∧
      r.endRev = repo.defaultBranch) := by
  refine ⟨?_, ?_, ?_, ?_⟩
  · intro h
    rcases latestPatchToPatch_inv repo bN with ⟨_, h2⟩ | ⟨head, tn, tn1, rest, st, hres, hsort, hfind, hop⟩
    · rw [h] at h2; simp at h2
    · rw [hop] at h
      injection h with h1 _
      subst h1
      have hpred := List.find?_some hfind
      simp only [isStrictAncB, isAncB, Bool.and_eq_true] at hpred
      have hmemSt : st ∈ tn1 :: rest := List.mem_of_find?_eq_some hfind
      have hmemSt2 : st ∈ sortTagsAsc (familyFilter repo bN (finalReachableTags repo head)) := by
        rw [← List.mem_reverse, hsort]
        exact List.mem_cons_of_mem tn hmemSt
      have hmemTn : tn ∈ sortTagsAsc (familyFilter repo bN (finalReachableTags repo head)) := by
        rw [← List.mem_reverse, hsort]
        exact List.mem_cons_self tn (tn1 :: rest)
      refine ⟨?_, (quals_spec hmemSt2).1, (quals_spec hmemTn).1⟩
      have := hpred.2
      simpa using this
  · intro h
    rcases latestPatchToLatest_inv repo bN with ⟨_, h2⟩ | ⟨head, t, hres, hmax, hop⟩
    · rw [h] at h2; simp at h2
    · rw [hop] at h
      injection h with h1 _
      subst h1
      have hmem := mem_finalReachable (mem_familyFilter (maxTag_mem hmax))
      exact ⟨hmem.2, validTags_name hmem.1, rfl⟩
  · intro h
    rcases nonPatchFinalToMinor_inv repo with ⟨_, h2⟩ | ⟨head, L, N, hres, hL, hN, hop⟩
    · rw [h] at h2; simp at h2
    · rw [hop] at h
      injection h with h1 _
      subst h1
      have hmemL := mem_finalReachable (List.mem_of_mem_filter (maxTag_mem hL))
      have hmemN0 := minTag_mem hN
      have hmemN1 : N ∈ validTags repo := List.mem_of_mem_filter hmemN0
      have hmemN2 := List.of_mem_filter hmemN0
      simp only [Bool.and_eq_true] at hmemN2
      have hNreach : N.target ∈ ancestorsOrSelf repo head := by
        have := hmemN2.1.1
        unfold isAncB at this
        simpa using this
      exact ⟨⟨head, hres, hmemL.2, hNreach⟩, validTags_name hmemL.1, validTags_name hmemN1⟩
  · intro h
    rcases mergeBaseToLatest_inv repo with ⟨_, h2⟩ | ⟨Bmm, defHead, base, lbl, hlrb, hdef, hmb, hlbl, hop⟩
    · rw [h] at h2; simp at h2
    · rw [hop] at h
      injection h with h1 _
      subst h1
      have hpred := List.find?_some hmb
      refine ⟨by simpa using hpred, ?_, rfl⟩
      simpa using hlbl

theorem discoverResult_invariant_amended_witness :
    "c1" ∈ ancestorsOrSelf repoFour "c3" ∧
    (∃ t0 ∈ repoFour.tags, t0.name = "v1.17.0") ∧
    (∃ t0 ∈ repoFour.tags, t0.name = "v1.17.1") :=
  (discoverResult_invariant_amended repoFour "release-1.17"
    ⟨"c1", "v1.17.0", "c3", "v1.17.1"⟩).1 (by decide)

/-! ## Helm lemmas and claims -/

theorem getIndex_queried {ι : Type} (download : String → Option ι) (cache : HelmCache ι)
    (c : Entry) :
    (getIndex download cache c).2.2 = [] ∨ (getIndex download cache c).2.2 = [c.URL] := by
  unfold getIndex
  cases cache with
  | none => cases download c.URL <;> simp
  | some m =>
    cases hl : m.lookup c.URL with
    | some idx => simp [hl]
    | none => cases hd : download c.URL <;> simp [hl, hd]

theorem helmLatestVersion_queried {ι : Type} (gv : ι → String → String → Option String)
    (dl : String → Option ι) (cache : HelmCache ι) (u : Helm) :
    (Helm.LatestVersion gv dl cache u).2.2 = (getIndex dl cache (helmEntry u)).2.2 := by
  unfold Helm.LatestVersion
  cases hg : getIndex dl cache (helmEntry u) with
  | mk c1 rest =>
    cases rest with
    | mk oi q =>
      cases oi with
      | none => simp
      | some idx => cases hgv : gv idx u.Name u.Constraints <;> simp [hgv]

/-- C9: `Helm.LatestVersion` queries the default stable repository URL
`https://kubernetes-charts.storage.googleapis.com/` whenever the
upstream's `Repo` field is empty or exactly `"stable"`, and queries the
`Repo` value unchanged otherwise: every URL it downloads is that
resolved URL (the download list is empty exactly on a cache hit). -/
theorem helmLatestVersion_url {ι : Type} (getVersion : ι → String → String → Option String)
    (download : String → Option ι) (cache : HelmCache ι) (upstream : Helm) :
    ((upstream.Repo = "" ∨ upstream.Repo = "stable") →
      (Helm.LatestVersion getVersion download cache upstream).2.2 = [] ∨
      (Helm.LatestVersion getVersion download cache upstream).2.2 =
        ["https://kubernetes-charts.storage.googleapis.com/"]) ∧
    (¬ (upstream.Repo = "" ∨ upstream.Repo = "stable") →
      (Helm.LatestVersion getVersion download cache upstream).2.2 = [] ∨
      (Helm.LatestVersion getVersion download cache upstream).2.2 = [upstream.Repo]) := by
  constructor
  · intro h
    rcases getIndex_queried download cache (helmEntry upstream) with hq | hq
    · left
      rw [helmLatestVersion_queried]
      exact hq
    · right
      rw [helmLatestVersion_queried, hq]
      show [helmRepoURL upstream] = _
      unfold helmRepoURL
      rw [if_pos h]
  · intro h
    rcases getIndex_queried download cache (helmEntry upstream) with hq | hq
    · left
      rw [helmLatestVersion_queried]
      exact hq
    · right
      rw [helmLatestVersion_queried, hq]
      show [helmRepoURL upstream] = _
      unfold helmRepoURL
      rw [if_neg h]

def helmGV : Nat → String → String → Option String := fun _ _ _ => some "1.2.3"

def helmDL : String → Option Nat := fun _ => some 7

def helmUpstreamStable : Helm :=
  ⟨"stable", "mychart", "", "", "", "", "", ""⟩

theorem helmLatestVersion_url_witness :
    ("stable" = "" ∨ "stable" = "stable") ∧
    ((Helm.LatestVersion helmGV helmDL none helmUpstreamStable).2.2 = [] ∨
     (Helm.LatestVersion helmGV helmDL none helmUpstreamStable).2.2 =
       ["https://kubernetes-charts.storage.googleapis.com/"]) :=
  ⟨Or.inr rfl,
   (helmLatestVersion_url helmGV helmDL none helmUpstreamStable).1 (Or.inr rfl)⟩

theorem getIndex_hit {ι : Type} (download : String → Option ι) (m : List (String × ι))
    (c : Entry) (idx : ι) (hl : m.lookup c.URL = some idx) :
    getIndex download (some m) c = (some m, some idx, []) := by
  unfold getIndex
  simp only [hl]

theorem getIndex_preserves {ι : Type} (download : String → Option ι) (cache : HelmCache ι)
    (c : Entry) (u : String) (idx : ι) (h : lookupCache cache u = some idx) :
    lookupCache (getIndex download cache c).1 u = some idx := by
  cases cache with
  | none => simp [lookupCache] at h
  | some m =>
    simp only [lookupCache] at h
    cases hl : m.lookup c.URL with
    | some i =>
      rw [getIndex_hit download m c i hl]
      simpa [lookupCache] using h
    | none =>
      cases hd : download c.URL with
      | none =>
        have hop : getIndex download (some m) c = (some m, none, [c.URL]) := by
          unfold getIndex; simp only [hl, hd]
        rw [hop]
        simpa [lookupCache] using h
      | some i =>
        have hop : getIndex download (some m) c = (some ((c.URL, i) :: m), some i, [c.URL]) := by
          unfold getIndex; simp only [hl, hd]
        rw [hop]
        have hne : (u == c.URL) = false := by
          apply beq_eq_false_iff_ne.mpr
          intro he
          rw [← he] at hl
          rw [hl] at h
          exact Option.noConfusion h
        simp [lookupCache, List.lookup, hne, h]

theorem getIndex_success_lookup {ι : Type} (download : String → Option ι) (cache : HelmCache ι)
    (c : Entry) (cache1 : HelmCache ι) (idx : ι) (q : List String)
    (h : getIndex download cache c = (cache1, some idx, q)) :
    lookupCache cache1 c.URL = some idx := by
  cases cache with
  | none =>
    cases hd : download c.URL with
    | none =>
      have hop : getIndex download (none : HelmCache ι) c = (some [], none, [c.URL]) := by
        unfold getIndex; simp only [hd]
      rw [hop] at h
      injection h with _ h2
      injection h2 with h3 _
      exact Option.noConfusion h3
    | some i =>
      have hop : getIndex download (none : HelmCache ι) c
          = (some [(c.URL, i)], some i, [c.URL]) := by
        unfold getIndex; simp only [hd]
      rw [hop] at h
      injection h with h1 h2
      injection h2 with h3 _
      injection h3 with h4
      subst h1
      simp [lookupCache, List.lookup, h4]
  | some m =>
    cases hl : m.lookup c.URL with
    | some i =>
      rw [getIndex_hit download m c i hl] at h
      injection h with h1 h2
      injection h2 with h3 _
      injection h3 with h4
      subst h1
      simp [lookupCache, hl, h4]
    | none =>
      cases hd : download c.URL with
      | none =>
        have hop : getIndex download (some m) c = (some m, none, [c.URL]) := by
          unfold getIndex; simp only [hl, hd]
        rw [hop] at h
        injection h with _ h2
        injection h2 with h3 _
        exact Option.noConfusion h3
      | some i =>
        have hop : getIndex download (some m) c
            = (some ((c.URL, i) :: m), some i, [c.URL]) := by
          unfold getIndex; simp only [hl, hd]
        rw [hop] at h
        injection h with h1 h2
        injection h2 with h3 _
        injection h3 with h4
        subst h1
        simp [lookupCache, List.lookup, h4]

theorem evolveCache_preserves {ι : Type} (u : String) (idx : ι) :
    ∀ (steps : List ((String → Option ι) × Entry)) (cache : HelmCache ι),
      lookupCache cache u = some idx → lookupCache (evolveCache steps cache) u = some idx := by
  intro steps
  induction steps with
  | nil => intro cache h; exact h
  | cons s ss ih =>
    intro cache h
    exact ih _ (getIndex_preserves s.1 cache s.2 u idx h)

/-- C10: once `getIndex` has succeeded for an entry with a given URL,
every later `getIndex` call in the same process with an entry of that
URL — whatever its credential fields, and however many further
`getIndex` calls evolved the cache in between — returns the index
stored by the first call, performs no download, and leaves the cache
unchanged: the cache is never invalidated. -/
theorem getIndex_cached_forever {ι : Type} (download0 : String → Option ι)
    (cache0 : HelmCache ι) (c : Entry) (cache1 : HelmCache ι) (idx : ι) (q : List String)
    (h : getIndex download0 cache0 c = (cache1, some idx, q))
    (steps : List ((String → Option ι) × Entry)) (download1 : String → Option ι)
    (c1 : Entry) (hurl : c1.URL = c.URL) :
    getIndex download1 (evolveCache steps cache1) c1 =
      (evolveCache steps cache1, some idx, []) := by
  have h1 := getIndex_success_lookup download0 cache0 c cache1 idx q h
  have h2 := evolveCache_preserves c.URL idx steps cache1 h1
  cases hev : evolveCache steps cache1 with
  | none => rw [hev] at h2; simp [lookupCache] at h2
  | some m =>
    rw [hev] at h2
    simp only [lookupCache] at h2
    rw [← hurl] at h2
    exact getIndex_hit download1 m c1 idx h2

def dlA : String → Option Nat := fun _ => some 7

def dlB : String → Option Nat := fun _ => some 9

def dlC : String → Option Nat := fun _ => some 42

def entryA : Entry := ⟨"https://charts.example.com", "alice", "pw1", "", "", ""⟩

def entryB : Entry := ⟨"https://other.example.com", "", "", "", "", ""⟩

def entryA2 : Entry := ⟨"https://charts.example.com", "bob", "pw2", "cert", "key", "ca"⟩

theorem getIndex_cached_forever_witness :
    getIndex dlA none entryA
      = (some [("https://charts.example.com", 7)], some 7, ["https://charts.example.com"]) ∧
    getIndex dlC (evolveCache [(dlB, entryB)] (some [("https://charts.example.com", 7)])) entryA2
      = (evolveCache [(dlB, entryB)] (some [("https://charts.example.com", 7)]), some 7, []) :=
  ⟨by decide,
   getIndex_cached_forever dlA none entryA (some [("https://charts.example.com", 7)]) 7
     ["https://charts.example.com"] (by decide) [(dlB, entryB)] dlC entryA2 rfl⟩
